import Mathlib

/-!
Shallow embedding of the memory ingestion/retrieval pipeline
(`src/chunking.ts`, `src/memory-system.ts`, `src/vector-store.ts`)
and proofs about its specified behaviour.

Strings are modelled as Lean `String` / `List Char`; JS regex operations
are embedded as explicit recursive functions over `List Char`.
-/

namespace Memories

/-- The ECMAScript `\s` character class (WhiteSpace ∪ LineTerminator),
which is also the character set removed by `String.prototype.trim`. -/
def isWs (c : Char) : Bool :=
  c == ' ' || c == '\t' || c == '\n' || c == '\r' || c == '\x0b' || c == '\x0c' ||
  c == ' ' || c == ' ' || (0x2000 ≤ c.toNat && c.toNat ≤ 0x200a) ||
  c == ' ' || c == ' ' || c == ' ' || c == ' ' ||
  c == '　' || c == '﻿'

/-- Worker for `collapseWs`; the flag records whether the previous input
character belonged to a `\s` run (so further `\s` characters are dropped
rather than emitting another space). -/
def collapseWsAux (prevWs : Bool) : List Char → List Char
  | [] => []
  | c :: cs =>
    if isWs c then
      if prevWs then collapseWsAux true cs
      else ' ' :: collapseWsAux true cs
    else c :: collapseWsAux false cs

/-- `text.replace(/\s+/g, ' ')`: each maximal run of `\s` characters becomes
a single space. -/
def collapseWs (l : List Char) : List Char :=
  collapseWsAux false l

/-- Worker for `collapseNl`; the flag records whether the previous input
character belonged to a `'\n'` run. -/
def collapseNlAux (prevNl : Bool) : List Char → List Char
  | [] => []
  | c :: cs =>
    if c == '\n' then
      if prevNl then collapseNlAux true cs
      else '\n' :: collapseNlAux true cs
    else c :: collapseNlAux false cs

/-- `text.replace(/\n+/g, '\n')`: each maximal run of `'\n'` becomes a single
newline. -/
def collapseNl (l : List Char) : List Char :=
  collapseNlAux false l

/-- `String.prototype.trim`: strip leading and trailing `\s` characters. -/
def jsTrim (l : List Char) : List Char :=
  ((l.dropWhile isWs).reverse.dropWhile isWs).reverse

/-- `normalizeText` from `src/chunking.ts`:
`text.replace(/\s+/g, ' ').replace(/\n+/g, '\n').trim()`. -/
def normalizeChars (l : List Char) : List Char :=
  jsTrim (collapseNl (collapseWs l))

/-- `normalizeText` on `String`. -/
def normalizeText (s : String) : String :=
  ⟨normalizeChars s.data⟩

example : normalizeText "  hello world  " = "hello world" := by decide
example : normalizeText "hello    world" = "hello world" := by decide
example : normalizeText "hello\n\n\nworld" = "hello world" := by decide
example : normalizeText "" = "" := by decide

/-! ## Sentence splitting and chunking (`src/chunking.ts`) -/

/-- JS `String.prototype.split` on a regex matching runs of characters
satisfying `p` (e.g. `/[.!?]+/`, `/\s+/`): the fields between maximal runs,
including an empty leading/trailing field when the string starts/ends with a
run, and `[""]` for the empty string. -/
def fieldsRun (p : Char → Bool) : List Char → List (List Char)
  | [] => [[]]
  | c :: cs =>
    let r := fieldsRun p cs
    if p c then
      if (match cs with | d :: _ => p d | [] => false) then r
      else [] :: r
    else
      match r with
      | [] => [[c]]
      | f :: fs => (c :: f) :: fs

/-- Sentence-terminal punctuation class `[.!?]`. -/
def isPunct (c : Char) : Bool :=
  c == '.' || c == '!' || c == '?'

/-- `splitIntoSentences` from `src/chunking.ts`:
`text.split(/[.!?]+/).map(s => s.trim()).filter(s => s.length > 0)`. -/
def splitIntoSentences (text : String) : List String :=
  (((fieldsRun isPunct text.data).map jsTrim).filter (fun l => l.length > 0)).map
    (fun l => String.mk l)

/-- `estimateTokenCount` from `src/chunking.ts`: `Math.ceil(text.length / 4)`. -/
def estimateTokenCount (text : String) : Nat :=
  (text.length + 3) / 4

/-- The `Chunk` interface of `src/chunking.ts`. -/
structure Chunk where
  text : String
  index : Nat
  tokenCount : Nat
deriving DecidableEq, Repr

/-- `currentChunk.join('. ') + '.'` -/
def joinChunk (sentences : List String) : String :=
  String.intercalate ". " sentences ++ "."

/-- The backward walk of `chunkText` (lines 61-76 of `src/chunking.ts`):
iterates over the reversed flushed sentence list, prepending each sentence
while the accumulated token count stays `≤ overlapTokens`, and stops at the
first sentence that would exceed it. -/
def overlapAux (overlapTokens : Nat) : List String → List String → Nat → List String × Nat
  | [], acc, cnt => (acc, cnt)
  | s :: rest, acc, cnt =>
    let t := estimateTokenCount s
    if cnt + t ≤ overlapTokens then overlapAux overlapTokens rest (s :: acc) (cnt + t)
    else (acc, cnt)

/-- The overlap seeded after a flush: sentences kept (in order) and their
accumulated token count. -/
def overlapSentences (currentChunk : List String) (overlapTokens : Nat) :
    List String × Nat :=
  overlapAux overlapTokens currentChunk.reverse [] 0

/-- The main loop of `chunkText`, with state
(`currentChunk`, `currentTokenCount`, `chunkIndex`, `chunks`). -/
def chunkLoop (maxTokens overlapTokens : Nat) :
    List String → List String → Nat → Nat → List Chunk → List Chunk
  | [], cur, curCnt, idx, chunks =>
    if cur.isEmpty then chunks else chunks ++ [⟨joinChunk cur, idx, curCnt⟩]
  | s :: rest, cur, curCnt, idx, chunks =>
    let st := estimateTokenCount s
    if curCnt + st > maxTokens && !cur.isEmpty then
      let flushed : Chunk := ⟨joinChunk cur, idx, curCnt⟩
      let ov := overlapSentences cur overlapTokens
      chunkLoop maxTokens overlapTokens rest (ov.1 ++ [s]) (ov.2 + st) (idx + 1)
        (chunks ++ [flushed])
    else
      chunkLoop maxTokens overlapTokens rest (cur ++ [s]) (curCnt + st) idx chunks

/-- `chunkText` from `src/chunking.ts` (TS defaults: `maxTokens = 500`,
`overlapTokens = 50`). -/
def chunkText (text : String) (maxTokens overlapTokens : Nat) : List Chunk :=
  chunkLoop maxTokens overlapTokens (splitIntoSentences text) [] 0 0 []

example : chunkText "Short text" 100 20 = [⟨"Short text.", 0, 3⟩] := by decide
example : chunkText "" 100 20 = [] := by decide

/-! ## Metadata extraction (`src/chunking.ts`) -/

/-- Does a match of `/https?:\/\/[^\s]+/` start exactly here? -/
def startsWithUrl : List Char → Bool
  | 'h' :: 't' :: 't' :: 'p' :: rest =>
    match rest with
    | 's' :: ':' :: '/' :: '/' :: c :: _ => !isWs c
    | ':' :: '/' :: '/' :: c :: _ => !isWs c
    | _ => false
  | _ => false

def allNonWs (l : List Char) : Bool :=
  l.all (fun c => !isWs c)

/-- Does a match of `/[^\s]+@[^\s]+\.[^\s]+/` start exactly here?
(searches over the lengths of the first two `[^\s]+` groups). -/
def emailStartingAt (t : List Char) : Bool :=
  (List.range (t.length + 1)).any (fun k1 =>
    decide (1 ≤ k1) && allNonWs (t.take k1) &&
    (match t.drop k1 with
     | '@' :: u =>
       (List.range (u.length + 1)).any (fun k2 =>
         decide (1 ≤ k2) && allNonWs (u.take k2) &&
         (match u.drop k2 with
          | '.' :: c :: _ => !isWs c
          | _ => false))
     | _ => false))

/-- The record returned by `extractMetadata` in `src/chunking.ts`. -/
structure ExtractedMetadata where
  wordCount : Nat
  charCount : Nat
  hasUrl : Bool
  hasEmail : Bool
  language : String
deriving DecidableEq, Repr

/-- `extractMetadata` from `src/chunking.ts`: `wordCount` is
`text.split(/\s+/).length`, `charCount` is `text.length`, `hasUrl` and
`hasEmail` are regex `test`s, `language` is the constant `'en'`. -/
def extractMetadata (text : String) : ExtractedMetadata :=
  ⟨(fieldsRun isWs text.data).length,
   text.length,
   text.data.tails.any startsWithUrl,
   text.data.tails.any emailStartingAt,
   "en"⟩

example : (extractMetadata "one two three four five").wordCount = 5 := by decide
example : (extractMetadata "hello").charCount = 5 := by decide
example : (extractMetadata "Some text").language = "en" := by decide
example : (extractMetadata "Just plain text").hasUrl = false := by decide
example : (extractMetadata "Just plain text").hasEmail = false := by decide
example : (extractMetadata "go to https://example.com now").hasUrl = true := by decide
example : (extractMetadata "Contact me at test@example.com").hasEmail = true := by
  decide

/-! ## Metadata merge and the memory pipeline
(`src/memory-system.ts`, `src/vector-store.ts`) -/

/-- JSON-style metadata values. -/
inductive MetaVal where
  | nat (n : Nat)
  | bool (b : Bool)
  | str (s : String)
deriving DecidableEq, Repr

/-- A JS object viewed as a partial map from keys to values. -/
def MetaRecord : Type := String → Option MetaVal

/-- `extractMetadata` viewed as a key-value record (its five fixed keys). -/
def extractRecord (text : String) : MetaRecord := fun k =>
  if k = "wordCount" then some (.nat (extractMetadata text).wordCount)
  else if k = "charCount" then some (.nat (extractMetadata text).charCount)
  else if k = "hasUrl" then some (.bool (extractMetadata text).hasUrl)
  else if k = "hasEmail" then some (.bool (extractMetadata text).hasEmail)
  else if k = "language" then some (.str (extractMetadata text).language)
  else none

/-- The object literal built per chunk in `MemorySystem.addMemory`:
`{ ...metadata, ...extractMetadata(chunk.text), chunkIndex, totalChunks }`;
later spreads and literal properties win on key collisions. -/
def chunkMetadata (metadata : MetaRecord) (text : String)
    (chunkIndex totalChunks : Nat) : MetaRecord := fun k =>
  if k = "chunkIndex" then some (.nat chunkIndex)
  else if k = "totalChunks" then some (.nat totalChunks)
  else
    match extractRecord text k with
    | some v => some v
    | none => metadata k

/-- Embedding vectors (reals modelled as rationals). -/
abbrev Vec := List ℚ

/-- A point in the Qdrant collection: id, vector and the payload written by
`VectorStore.addMemory`. -/
structure StoredPoint where
  id : String
  vector : Vec
  text : String
  userId : String
  timestamp : Nat
  metadata : MetaRecord

/-- The state of the vector store's collection. -/
abbrev Store := List StoredPoint

/-- Qdrant `upsert`: replace the point carrying the same id, else append. -/
def upsert (st : Store) (p : StoredPoint) : Store :=
  if st.any (fun q => q.id == p.id) then
    st.map (fun q => if q.id == p.id then p else q)
  else st ++ [p]

/-- `Required<MemoryConfig>` after the `MemorySystem` constructor applies its
defaults (`nomic-embed-text`, `llama3.2`, 500, 50). -/
structure MemoryConfig where
  embeddingModel : String
  chatModel : String
  maxChunkTokens : Nat
  overlapTokens : Nat
deriving DecidableEq, Repr

def defaultMemoryConfig : MemoryConfig :=
  ⟨"nomic-embed-text", "llama3.2", 500, 50⟩

/-- `MemorySystem.generateEmbedding`: delegates to the external
`ollama.embeddings` call (the `embed` oracle) and wraps any failure into a
descriptive error naming the configured embedding model. -/
def generateEmbedding (cfg : MemoryConfig) (embed : String → Except String Vec)
    (text : String) : Except String Vec :=
  match embed text with
  | .ok v => .ok v
  | .error _ =>
    .error ("Failed to generate embedding. Is Ollama running with " ++
      cfg.embeddingModel ++ " model?")

/-- The per-chunk loop of `MemorySystem.addMemory`: `n` counts the chunks
already processed and indexes the fresh-id source `ids` (for `randomUUID()`)
and the clock `now` (for `Date.now()`); `accIds` is `memoryIds`.  A failed
embedding aborts the loop, leaving prior writes in the store. -/
def addMemoryLoop (cfg : MemoryConfig) (embed : String → Except String Vec)
    (ids : Nat → String) (now : Nat → Nat) (userId : String)
    (metadata : MetaRecord) (totalChunks : Nat) :
    List Chunk → Nat → List String → Store → Except String (List String) × Store
  | [], _, accIds, st => (.ok accIds, st)
  | c :: rest, n, accIds, st =>
    match generateEmbedding cfg embed c.text with
    | .error e => (.error e, st)
    | .ok v =>
      let md := chunkMetadata metadata c.text c.index totalChunks
      let st' := upsert st ⟨ids n, v, c.text, userId, now n, md⟩
      addMemoryLoop cfg embed ids now userId metadata totalChunks rest (n + 1)
        (accIds ++ [ids n]) st'

/-- `MemorySystem.addMemory`: normalize, chunk, then for each chunk generate
an embedding and upsert a point; returns the fresh ids in chunk order, or the
first embedding failure, together with the resulting store state. -/
def addMemory (cfg : MemoryConfig) (embed : String → Except String Vec)
    (ids : Nat → String) (now : Nat → Nat) (st : Store)
    (userId content : String) (metadata : MetaRecord) :
    Except String (List String) × Store :=
  let normalized := normalizeText content
  let chunks := chunkText normalized cfg.maxChunkTokens cfg.overlapTokens
  addMemoryLoop cfg embed ids now userId metadata chunks.length chunks 0 [] st

/-- A result row as returned by `VectorStore.search`. -/
structure SearchResult where
  id : String
  score : ℚ
  text : String
  timestamp : Nat
  metadata : MetaRecord

/-- Insertion into a list sorted by the Boolean relation `r`. -/
def insertBy (r : α → α → Bool) (a : α) : List α → List α
  | [] => [a]
  | b :: l => if r a b then a :: b :: l else b :: insertBy r a l

/-- Insertion sort by the Boolean relation `r` (models the engine's ranking). -/
def sortBy (r : α → α → Bool) : List α → List α
  | [] => []
  | a :: l => insertBy r a (sortBy r l)

/-- Modelled from the spec: the external Qdrant engine's `search` (not part of
this repository) — "retrieves the `limit` closest chunks scoped to `userId`
with similarity score ≥ `scoreThreshold`, ordered by descending similarity";
`score` is the engine's similarity measure against the query vector. -/
def qdrantSearch (score : Vec → Vec → ℚ) (st : Store) (qvec : Vec)
    (userId : String) (limit : Nat) (threshold : ℚ) : List StoredPoint :=
  let candidates := st.filter
    (fun p => p.userId == userId && decide (threshold ≤ score qvec p.vector))
  (sortBy (fun a b => decide (score qvec b.vector ≤ score qvec a.vector))
    candidates).take limit

/-- `VectorStore.search` (`src/vector-store.ts`): delegates to the engine with
a `userId` must-filter, `limit` and `score_threshold`, and maps each hit to
`{ id, score, text, timestamp, metadata }`. -/
def vectorStoreSearch (score : Vec → Vec → ℚ) (st : Store) (embedding : Vec)
    (userId : String) (limit : Nat) (scoreThreshold : ℚ) : List SearchResult :=
  (qdrantSearch score st embedding userId limit scoreThreshold).map
    (fun p => ⟨p.id, score embedding p.vector, p.text, p.timestamp, p.metadata⟩)

/-- `SearchMemoryOptions`; `none` marks an omitted optional parameter. -/
structure SearchMemoryOptions where
  userId : String
  query : String
  limit : Option Nat
  scoreThreshold : Option ℚ

/-- The literal `0.5` of the source, as a rational given by its reduced
numerator/denominator (kernel-computable form of `1/2`). -/
def half : ℚ := ⟨1, 2, by decide, by decide⟩

/-- `MemorySystem.searchMemories`: destructuring defaults `limit = 5` and
`scoreThreshold = 0.5`; embeds the query, then searches the vector store. -/
def searchMemories (cfg : MemoryConfig) (embed : String → Except String Vec)
    (score : Vec → Vec → ℚ) (st : Store) (opts : SearchMemoryOptions) :
    Except String (List SearchResult) :=
  match generateEmbedding cfg embed opts.query with
  | .error e => .error e
  | .ok qv =>
    .ok (vectorStoreSearch score st qv opts.userId (opts.limit.getD 5)
      (opts.scoreThreshold.getD half))

/-- `ChatOptions`; `none` marks an omitted optional parameter. -/
structure ChatOptions where
  userId : String
  message : String
  systemPrompt : Option String
  includeMemoryContext : Option Bool
  maxContextMemories : Option Nat

/-- JS `Number.prototype.toFixed(1)` for the nonnegative scores occurring
here (round to nearest tenth, ties upward). -/
def toFixed1 (q : ℚ) : String :=
  let n := (q * 10 + half).floor.toNat
  toString (n / 10) ++ "." ++ toString (n % 10)

/-- The memory context block built in `MemorySystem.chat` / `chatStream`. -/
def memoryContext (memories : List SearchResult) : String :=
  String.intercalate "\n\n" (memories.enum.map (fun im =>
    "[Memory " ++ toString (im.1 + 1) ++ "] (relevance: " ++
      toFixed1 (im.2.score * 100) ++ "%)\n" ++ im.2.text))

/-- The result of `MemorySystem.chat`. -/
structure ChatResult where
  response : String
  memoriesUsed : Nat

/-- The default system prompt of `MemorySystem.chat` / `chatStream`. -/
def defaultSystemPrompt : String :=
  "You are a helpful AI assistant with access to the user's memories."

/-- The context-assembly step shared by `MemorySystem.chat` and `chatStream`:
applies the option defaults and, when context is enabled and the search found
results, appends the memory-context block to the system prompt. -/
def chatContextPrompt (cfg : MemoryConfig) (embed : String → Except String Vec)
    (score : Vec → Vec → ℚ) (st : Store) (opts : ChatOptions) :
    Except String String :=
  if opts.includeMemoryContext.getD true then
    match searchMemories cfg embed score st
        ⟨opts.userId, opts.message, some (opts.maxContextMemories.getD 5),
          none⟩ with
    | .error e => .error e
    | .ok memories =>
      if memories.length > 0 then
        .ok (opts.systemPrompt.getD defaultSystemPrompt ++
          "\n\n### Relevant memories from past conversations:\n" ++
          memoryContext memories ++
          "\n\n### Use this context to provide a more personalized response.")
      else .ok (opts.systemPrompt.getD defaultSystemPrompt)
  else .ok (opts.systemPrompt.getD defaultSystemPrompt)

/-- `MemorySystem.chat`: assembles the context prompt, delegates to the
external chat provider `complete` (system prompt, user message), and reports
`memoriesUsed` as `includeMemoryContext ? maxContextMemories : 0`. -/
def chat (cfg : MemoryConfig) (embed : String → Except String Vec)
    (score : Vec → Vec → ℚ) (complete : String → String → String) (st : Store)
    (opts : ChatOptions) : Except String ChatResult :=
  match chatContextPrompt cfg embed score st opts with
  | .error e => .error e
  | .ok contextPrompt =>
    .ok ⟨complete contextPrompt opts.message,
      if opts.includeMemoryContext.getD true then opts.maxContextMemories.getD 5
      else 0⟩

/-! ## Instrumented variants used in the proofs -/

/-- `chunkLoop`, additionally recording for each emitted chunk the sentence
list it was assembled from (same control flow, extra bookkeeping only). -/
def chunkLoopS (maxTokens overlapTokens : Nat) :
    List String → List String → Nat → Nat → List (Chunk × List String) →
      List (Chunk × List String)
  | [], cur, curCnt, idx, chunks =>
    if cur.isEmpty then chunks
    else chunks ++ [(⟨joinChunk cur, idx, curCnt⟩, cur)]
  | s :: rest, cur, curCnt, idx, chunks =>
    let st := estimateTokenCount s
    if curCnt + st > maxTokens && !cur.isEmpty then
      let ov := overlapSentences cur overlapTokens
      chunkLoopS maxTokens overlapTokens rest (ov.1 ++ [s]) (ov.2 + st) (idx + 1)
        (chunks ++ [(⟨joinChunk cur, idx, curCnt⟩, cur)])
    else
      chunkLoopS maxTokens overlapTokens rest (cur ++ [s]) (curCnt + st) idx chunks

/-- `chunkText`, recording each chunk's sentence list. -/
def chunkTextS (text : String) (maxTokens overlapTokens : Nat) :
    List (Chunk × List String) :=
  chunkLoopS maxTokens overlapTokens (splitIntoSentences text) [] 0 0 []

/-- The whitespace-delimited tokens of a string: the nonempty fields of the
whitespace split. -/
def wsTokens (l : List Char) : List (List Char) :=
  (fieldsRun isWs l).filter (fun f => !f.isEmpty)

/-- The store obtained from `st` by performing the `addMemory` writes for the
given chunks with the given (successful) embedding vectors, starting at
call counter `n`. -/
def writeChunks (ids : Nat → String) (now : Nat → Nat) (userId : String)
    (metadata : MetaRecord) (totalChunks : Nat) :
    Store → List Chunk → List Vec → Nat → Store
  | st, c :: cs, v :: ws, n =>
    writeChunks ids now userId metadata totalChunks
      (upsert st ⟨ids n, v, c.text, userId, now n,
        chunkMetadata metadata c.text c.index totalChunks⟩) cs ws (n + 1)
  | st, _, _, _ => st

/-! ## Helper lemmas -/

lemma mem_insertBy {α : Type _} (r : α → α → Bool) (a b : α) (l : List α) :
    b ∈ insertBy r a l ↔ b = a ∨ b ∈ l := by
  induction l with
  | nil => simp [insertBy]
  | cons c t ih =>
    simp only [insertBy]
    split
    · simp [List.mem_cons]
    · simp only [List.mem_cons, ih]
      tauto

lemma mem_sortBy {α : Type _} (r : α → α → Bool) (b : α) (l : List α) :
    b ∈ sortBy r l ↔ b ∈ l := by
  induction l with
  | nil => simp [sortBy]
  | cons c t ih => simp [sortBy, mem_insertBy, ih]

lemma vectorStoreSearch_mem {score : Vec → Vec → ℚ} {st : Store} {qv : Vec}
    {uid : String} {limit : Nat} {thr : ℚ} {r : SearchResult}
    (hr : r ∈ vectorStoreSearch score st qv uid limit thr) :
    ∃ p, p ∈ st ∧ p.userId = uid ∧ thr ≤ score qv p.vector ∧
      r = ⟨p.id, score qv p.vector, p.text, p.timestamp, p.metadata⟩ := by
  unfold vectorStoreSearch qdrantSearch at hr
  obtain ⟨p, hp, rfl⟩ := List.mem_map.mp hr
  have hp' := List.mem_of_mem_take hp
  rw [mem_sortBy] at hp'
  obtain ⟨hmem, hcond⟩ := List.mem_filter.mp hp'
  simp only [Bool.and_eq_true, beq_iff_eq, decide_eq_true_eq] at hcond
  exact ⟨p, hmem, hcond.1, hcond.2, rfl⟩

lemma vectorStoreSearch_length (score : Vec → Vec → ℚ) (st : Store) (qv : Vec)
    (uid : String) (limit : Nat) (thr : ℚ) :
    (vectorStoreSearch score st qv uid limit thr).length ≤ limit := by
  unfold vectorStoreSearch qdrantSearch
  rw [List.length_map]
  exact List.length_take_le _ _

/-- Characterization of the backward overlap walk: it keeps exactly the
longest prefix of the reversed list whose token estimates it can afford. -/
lemma overlapAux_spec (ovT : Nat) :
    ∀ (r acc : List String) (cnt : Nat), cnt ≤ ovT →
    ∃ k, k ≤ r.length ∧
      (overlapAux ovT r acc cnt).1 = (r.take k).reverse ++ acc ∧
      (overlapAux ovT r acc cnt).2 =
        cnt + ((r.take k).map estimateTokenCount).sum ∧
      cnt + ((r.take k).map estimateTokenCount).sum ≤ ovT ∧
      (k = r.length ∨
        cnt + ((r.take (k + 1)).map estimateTokenCount).sum > ovT) := by
  intro r
  induction r with
  | nil =>
    intro acc cnt hcnt
    exact ⟨0, Nat.le_refl _, rfl, by simp [overlapAux], by simpa using hcnt,
      Or.inl rfl⟩
  | cons s rest ih =>
    intro acc cnt hcnt
    by_cases h : cnt + estimateTokenCount s ≤ ovT
    · obtain ⟨k, hk, h1, h2, h3, h4⟩ := ih (s :: acc) (cnt + estimateTokenCount s) h
      refine ⟨k + 1, by simpa using Nat.succ_le_succ hk, ?_, ?_, ?_, ?_⟩
      · rw [show overlapAux ovT (s :: rest) acc cnt =
            overlapAux ovT rest (s :: acc) (cnt + estimateTokenCount s) by
          simp [overlapAux, h]]
        rw [h1, List.take_succ_cons, List.reverse_cons, List.append_assoc]
        rfl
      · rw [show overlapAux ovT (s :: rest) acc cnt =
            overlapAux ovT rest (s :: acc) (cnt + estimateTokenCount s) by
          simp [overlapAux, h]]
        rw [h2, List.take_succ_cons]
        simp [Nat.add_assoc]
      · rw [List.take_succ_cons]
        simpa [Nat.add_assoc] using h3
      · rcases h4 with h4 | h4
        · exact Or.inl (by simp [h4])
        · refine Or.inr ?_
          rw [List.take_succ_cons]
          simpa [Nat.add_assoc] using h4
    · refine ⟨0, Nat.zero_le _, ?_, ?_, by simpa using hcnt, ?_⟩
      · simp [overlapAux, h]
      · simp [overlapAux, h]
      · exact Or.inr (by simpa using Nat.lt_of_not_le h)

/-- Sum of the token estimates of a prefix is at most that of the whole
list. -/
lemma sum_map_take_le (f : String → Nat) (n : Nat) (l : List String) :
    ((l.take n).map f).sum ≤ (l.map f).sum := by
  conv_rhs => rw [← List.take_append_drop n l]
  rw [List.map_append, List.sum_append]
  exact Nat.le_add_right _ _

/-- The overlap seeded after a flush is a suffix of the flushed sentence list
(whole sentences only), its token count is the sum of its sentences'
estimates, it stays within `overlapTokens`, and it is the longest such
suffix. -/
lemma overlapSentences_spec (l : List String) (ovT : Nat) :
    (overlapSentences l ovT).1 <:+ l ∧
    (overlapSentences l ovT).2 =
      (((overlapSentences l ovT).1).map estimateTokenCount).sum ∧
    (overlapSentences l ovT).2 ≤ ovT ∧
    ∀ t, t <:+ l → (t.map estimateTokenCount).sum ≤ ovT →
      t.length ≤ (overlapSentences l ovT).1.length := by
  obtain ⟨k, hk, h1, h2, h3, h4⟩ :=
    overlapAux_spec ovT l.reverse [] 0 (Nat.zero_le _)
  rw [List.length_reverse] at hk
  have h1' : (overlapSentences l ovT).1 = (l.reverse.take k).reverse := by
    simpa [overlapSentences] using h1
  have hlen : (overlapSentences l ovT).1.length = k := by
    rw [h1', List.length_reverse, List.length_take, List.length_reverse]
    exact Nat.min_eq_left hk
  refine ⟨?_, ?_, ?_, ?_⟩
  · rw [h1']
    have : (l.reverse.take k).reverse.reverse <+: l.reverse := by
      rw [List.reverse_reverse]
      exact List.take_prefix _ _
    exact List.reverse_prefix.mp this
  · rw [h1', List.map_reverse, List.sum_reverse]
    simpa [overlapSentences] using h2
  · have := h3
    simpa [overlapSentences, ← h2] using
      (show (overlapAux ovT l.reverse [] 0).2 ≤ ovT by rw [h2]; simpa using h3)
  · intro t ht hsum
    rw [hlen]
    rcases h4 with h4 | h4
    · calc t.length ≤ l.length := ht.length_le
        _ = l.reverse.length := (List.length_reverse l).symm
        _ = k := h4.symm
    · by_contra hgt
      push_neg at hgt
      have htk : k + 1 ≤ t.length := hgt
      have hpre : t.reverse <+: l.reverse := List.reverse_prefix.mpr ht
      obtain ⟨u, hu⟩ := hpre
      have htake : l.reverse.take (k + 1) = t.reverse.take (k + 1) := by
        rw [← hu]
        exact List.take_append_of_le_length (by simpa using htk)
      have : ((l.reverse.take (k + 1)).map estimateTokenCount).sum ≤
          (t.map estimateTokenCount).sum := by
        rw [htake]
        calc ((t.reverse.take (k + 1)).map estimateTokenCount).sum ≤
            (t.reverse.map estimateTokenCount).sum :=
              sum_map_take_le _ _ _
          _ = (t.map estimateTokenCount).sum := by
              rw [List.map_reverse, List.sum_reverse]
      omega

/-- No two adjacent whitespace characters. -/
def NoTwoWs (a b : Char) : Prop := ¬(isWs a = true ∧ isWs b = true)

lemma collapseWsAux_ws_eq_space :
    ∀ (l : List Char) (b : Bool) (c : Char),
      c ∈ collapseWsAux b l → isWs c = true → c = ' ' := by
  intro l
  induction l with
  | nil => intro b c hc _; simp [collapseWsAux] at hc
  | cons d t ih =>
    intro b c hc hws
    by_cases hd : isWs d = true
    · cases b with
      | true =>
        simp only [collapseWsAux, hd, if_true] at hc
        exact ih true c hc hws
      | false =>
        simp only [collapseWsAux, hd, if_true, Bool.false_eq_true, if_false] at hc
        rcases List.mem_cons.mp hc with rfl | hc
        · rfl
        · exact ih true c hc hws
    · simp only [collapseWsAux, hd, Bool.false_eq_true, if_false] at hc
      rcases List.mem_cons.mp hc with rfl | hc
      · exact absurd hws hd
      · exact ih false c hc hws

lemma collapseWsAux_true_head :
    ∀ (l : List Char) (c : Char),
      (collapseWsAux true l).head? = some c → isWs c = false := by
  intro l
  induction l with
  | nil => intro c hc; simp [collapseWsAux] at hc
  | cons d t ih =>
    intro c hc
    by_cases hd : isWs d = true
    · simp only [collapseWsAux, hd, if_true] at hc
      exact ih c hc
    · simp only [collapseWsAux, hd, Bool.false_eq_true, if_false,
        List.head?_cons, Option.some.injEq] at hc
      subst hc
      cases hb : isWs d
      · rfl
      · exact absurd hb hd

lemma collapseWsAux_chain' :
    ∀ (l : List Char) (b : Bool), List.Chain' NoTwoWs (collapseWsAux b l) := by
  intro l
  induction l with
  | nil => intro b; simp [collapseWsAux]
  | cons d t ih =>
    intro b
    by_cases hd : isWs d = true
    · cases b with
      | true => simpa only [collapseWsAux, hd, if_true] using ih true
      | false =>
        simp only [collapseWsAux, hd, if_true, Bool.false_eq_true, if_false]
        rw [List.chain'_cons']
        refine ⟨?_, ih true⟩
        intro y hy
        have hy' : isWs y = false := collapseWsAux_true_head t y hy
        intro hcon
        rw [hy'] at hcon
        exact Bool.false_ne_true hcon.2
    · simp only [collapseWsAux, hd, Bool.false_eq_true, if_false]
      rw [List.chain'_cons']
      refine ⟨?_, ih false⟩
      intro y _ hcon
      exact hd hcon.1

lemma collapseWsAux_true_eq_false_of_head (l : List Char)
    (h : ∀ c, l.head? = some c → isWs c = false) :
    collapseWsAux true l = collapseWsAux false l := by
  cases l with
  | nil => rfl
  | cons d t =>
    have hd := h d rfl
    simp [collapseWsAux, hd]

lemma collapseWsAux_fix :
    ∀ (l : List Char), (∀ c ∈ l, isWs c = true → c = ' ') →
      List.Chain' NoTwoWs l → collapseWsAux false l = l := by
  intro l
  induction l with
  | nil => intro _ _; rfl
  | cons d t ih =>
    intro hws hch
    by_cases hd : isWs d = true
    · have hd' : d = ' ' := hws d (List.mem_cons_self d t) hd
      simp only [collapseWsAux, hd, if_true, Bool.false_eq_true, if_false]
      have hhead : ∀ c, t.head? = some c → isWs c = false := by
        intro c hc
        have hR := (List.chain'_cons'.mp hch).1 c hc
        cases hic : isWs c
        · rfl
        · exact absurd ⟨hd, hic⟩ hR
      rw [collapseWsAux_true_eq_false_of_head t hhead,
        ih (fun c hc h => hws c (List.mem_cons_of_mem d hc) h)
          (List.chain'_cons'.mp hch).2, hd']
    · simp only [collapseWsAux, hd, Bool.false_eq_true, if_false]
      rw [ih (fun c hc h => hws c (List.mem_cons_of_mem d hc) h)
        (List.chain'_cons'.mp hch).2]

lemma collapseNlAux_fix :
    ∀ (l : List Char) (b : Bool), '\n' ∉ l → collapseNlAux b l = l := by
  intro l
  induction l with
  | nil => intro _ _; rfl
  | cons d t ih =>
    intro b hmem
    have hd : (d == '\n') = false := by
      cases hb : d == '\n'
      · rfl
      · exact absurd (List.mem_cons_self d t)
          (beq_iff_eq.mp hb ▸ hmem)
    simp only [collapseNlAux, hd, Bool.false_eq_true, if_false]
    rw [ih false (fun hc => hmem (List.mem_cons_of_mem d hc))]

lemma head?_dropWhile (p : Char → Bool) :
    ∀ (l : List Char) (c : Char), (l.dropWhile p).head? = some c →
      p c = false := by
  intro l
  induction l with
  | nil => intro c hc; simp [List.dropWhile] at hc
  | cons d t ih =>
    intro c hc
    by_cases hd : p d = true
    · simp only [List.dropWhile, hd, if_true] at hc
      exact ih c hc
    · simp only [List.dropWhile, hd, if_false, List.head?_cons,
        Option.some.injEq] at hc
      subst hc
      simpa using hd

lemma dropWhile_eq_self_of_head (p : Char → Bool) :
    ∀ (l : List Char), (∀ c, l.head? = some c → p c = false) →
      l.dropWhile p = l := by
  intro l h
  cases l with
  | nil => rfl
  | cons d t => simp [List.dropWhile, h d rfl]

lemma mem_of_mem_jsTrim (l : List Char) (c : Char) (h : c ∈ jsTrim l) :
    c ∈ l := by
  unfold jsTrim at h
  rw [List.mem_reverse] at h
  have h1 := (List.dropWhile_sublist isWs).subset h
  rw [List.mem_reverse] at h1
  exact (List.dropWhile_sublist isWs).subset h1

lemma chain'_reverse_noTwoWs (l : List Char)
    (h : List.Chain' NoTwoWs l) : List.Chain' NoTwoWs l.reverse := by
  rw [List.chain'_reverse]
  exact h.imp (fun a b hab hcon => hab ⟨hcon.2, hcon.1⟩)

lemma chain'_jsTrim (l : List Char) (h : List.Chain' NoTwoWs l) :
    List.Chain' NoTwoWs (jsTrim l) := by
  unfold jsTrim
  exact chain'_reverse_noTwoWs _
    ((chain'_reverse_noTwoWs _ (h.suffix (List.dropWhile_suffix isWs))).suffix
      (List.dropWhile_suffix isWs))

lemma jsTrim_head? (l : List Char) (c : Char)
    (h : (jsTrim l).head? = some c) : isWs c = false := by
  unfold jsTrim at h
  rw [List.head?_reverse] at h
  have hne : ((l.dropWhile isWs).reverse).dropWhile isWs ≠ [] := by
    intro he
    rw [he] at h
    simp at h
  obtain ⟨u, hu⟩ :=
    (List.dropWhile_suffix isWs :
      ((l.dropWhile isWs).reverse).dropWhile isWs <:+ (l.dropWhile isWs).reverse)
  have h2 : (u ++ ((l.dropWhile isWs).reverse).dropWhile isWs).getLast? =
      some c := by
    rw [List.getLast?_append_of_ne_nil u hne]
    exact h
  rw [hu, List.getLast?_reverse] at h2
  exact head?_dropWhile isWs l c h2

lemma jsTrim_getLast? (l : List Char) (c : Char)
    (h : (jsTrim l).getLast? = some c) : isWs c = false := by
  unfold jsTrim at h
  rw [List.getLast?_reverse] at h
  exact head?_dropWhile isWs _ c h

lemma jsTrim_fix (l : List Char)
    (h1 : ∀ c, l.head? = some c → isWs c = false)
    (h2 : ∀ c, l.getLast? = some c → isWs c = false) : jsTrim l = l := by
  unfold jsTrim
  rw [dropWhile_eq_self_of_head isWs l h1,
    dropWhile_eq_self_of_head isWs l.reverse
      (fun c hc => h2 c (by rwa [List.head?_reverse] at hc)),
    List.reverse_reverse]

lemma no_newline_of_ws_space (l : List Char)
    (h : ∀ c ∈ l, isWs c = true → c = ' ') : '\n' ∉ l := by
  intro hmem
  exact absurd (h '\n' hmem (by decide)) (by decide)

/-- After the first regex replace there are no newlines left, so the second
replace of `normalizeText` is the identity. -/
lemma normalizeChars_eq (l : List Char) :
    normalizeChars l = jsTrim (collapseWs l) := by
  unfold normalizeChars collapseNl
  rw [collapseNlAux_fix (collapseWs l) false
    (no_newline_of_ws_space _ (fun c hc h => collapseWsAux_ws_eq_space l false c hc h))]

lemma normalizeChars_ws_space (l : List Char) :
    ∀ c ∈ normalizeChars l, isWs c = true → c = ' ' := by
  rw [normalizeChars_eq]
  intro c hc h
  exact collapseWsAux_ws_eq_space l false c (mem_of_mem_jsTrim _ c hc) h

lemma normalizeChars_chain' (l : List Char) :
    List.Chain' NoTwoWs (normalizeChars l) := by
  rw [normalizeChars_eq]
  exact chain'_jsTrim _ (collapseWsAux_chain' l false)

lemma normalizeChars_head? (l : List Char) (c : Char)
    (h : (normalizeChars l).head? = some c) : isWs c = false := by
  rw [normalizeChars_eq] at h
  exact jsTrim_head? _ c h

lemma normalizeChars_getLast? (l : List Char) (c : Char)
    (h : (normalizeChars l).getLast? = some c) : isWs c = false := by
  rw [normalizeChars_eq] at h
  exact jsTrim_getLast? _ c h

lemma normalizeChars_idem (l : List Char) :
    normalizeChars (normalizeChars l) = normalizeChars l := by
  have hws := normalizeChars_ws_space l
  have h1 : collapseWs (normalizeChars l) = normalizeChars l :=
    collapseWsAux_fix _ hws (normalizeChars_chain' l)
  show jsTrim (collapseNl (collapseWs (normalizeChars l))) = normalizeChars l
  rw [show collapseWs (normalizeChars l) = normalizeChars l from h1]
  rw [show collapseNl (normalizeChars l) = normalizeChars l from
    collapseNlAux_fix _ false (no_newline_of_ws_space _ hws)]
  exact jsTrim_fix _ (normalizeChars_head? l) (normalizeChars_getLast? l)

lemma fieldsRun_ne_nil (p : Char → Bool) (l : List Char) :
    fieldsRun p l ≠ [] := by
  induction l with
  | nil => simp [fieldsRun]
  | cons c cs ih =>
    by_cases hc : p c = true
    · cases cs with
      | nil => simp [fieldsRun, hc]
      | cons d t =>
        by_cases hd : p d = true
        · simpa [fieldsRun, hc, hd] using ih
        · have hd' : p d = false := by
            cases hb : p d
            · rfl
            · exact absurd hb hd
          simp [fieldsRun, hc, hd']
    · simp only [fieldsRun, hc, Bool.false_eq_true, if_false]
      cases hr : fieldsRun p cs <;> simp

/-- When the first character is not a separator, it is prepended to the first
field. -/
lemma fieldsRun_cons_not (p : Char → Bool) (c : Char) (cs : List Char)
    (hc : p c = false) :
    ∃ f fs, fieldsRun p (c :: cs) = (c :: f) :: fs ∧
      fieldsRun p cs = f :: fs := by
  cases hr : fieldsRun p cs with
  | nil => exact absurd hr (fieldsRun_ne_nil p cs)
  | cons f fs => exact ⟨f, fs, by simp [fieldsRun, hc, hr], rfl⟩

/-- When the string does not end in a separator, every field after the first
is nonempty. -/
lemma fieldsRun_tail_ne_nil (p : Char → Bool) :
    ∀ (l : List Char), (∀ c, l.getLast? = some c → p c = false) →
    ∃ f fs, fieldsRun p l = f :: fs ∧ ∀ g ∈ fs, g ≠ [] := by
  intro l
  induction l with
  | nil => intro _; exact ⟨[], [], rfl, by simp⟩
  | cons c cs ih =>
    intro hlast
    cases cs with
    | nil =>
      have hc : p c = false := hlast c rfl
      exact ⟨[c], [], by simp [fieldsRun, hc], by simp⟩
    | cons d t =>
      have hlast' : ∀ x, (d :: t).getLast? = some x → p x = false := by
        intro x hx
        exact hlast x (by rwa [List.getLast?_cons_cons])
      obtain ⟨f, fs, hf, hfs⟩ := ih hlast'
      by_cases hc : p c = true
      · by_cases hd : p d = true
        · refine ⟨f, fs, ?_, hfs⟩
          simpa [fieldsRun, hc, hd] using hf
        · have hd' : p d = false := by
            cases hb : p d
            · rfl
            · exact absurd hb hd
          obtain ⟨f', fs', hf', hr'⟩ := fieldsRun_cons_not p d t hd'
          rw [hf] at hf'
          injection hf' with e1 e2
          refine ⟨[], f :: fs, ?_, ?_⟩
          · simpa [fieldsRun, hc, hd] using congrArg (List.cons []) hf
          · intro g hg
            rcases List.mem_cons.mp hg with rfl | hg
            · rw [e1]; simp
            · exact hfs g hg
      · have hc' : p c = false := by
          cases hb : p c
          · rfl
          · exact absurd hb hc
        obtain ⟨f2, fs2, hf2, hr2⟩ := fieldsRun_cons_not p c (d :: t) hc'
        rw [hf] at hr2
        injection hr2 with e1 e2
        subst e1
        subst e2
        refine ⟨c :: f, fs, hf2, hfs⟩

/-- On a nonempty string bounded by non-separators, every field is
nonempty. -/
lemma fieldsRun_all_ne_nil (p : Char → Bool) (l : List Char) (hl : l ≠ [])
    (hhead : ∀ c, l.head? = some c → p c = false)
    (hlast : ∀ c, l.getLast? = some c → p c = false) :
    ∀ f ∈ fieldsRun p l, f ≠ [] := by
  cases l with
  | nil => exact absurd rfl hl
  | cons c cs =>
    have hc : p c = false := hhead c rfl
    obtain ⟨f, fs, hf, hr⟩ := fieldsRun_cons_not p c cs hc
    obtain ⟨f1, fs1, hf1, hfs1⟩ := fieldsRun_tail_ne_nil p (c :: cs) hlast
    rw [hf] at hf1
    injection hf1 with e1 e2
    intro g hg
    rw [hf] at hg
    rcases List.mem_cons.mp hg with rfl | hg
    · simp
    · exact hfs1 g (e2 ▸ hg)

/-- On a nonempty string with non-whitespace ends, the whitespace split has
exactly as many fields as there are whitespace-delimited tokens. -/
lemma fieldsRun_length_eq_wsTokens (l : List Char) (hl : l ≠ [])
    (hhead : ∀ c, l.head? = some c → isWs c = false)
    (hlast : ∀ c, l.getLast? = some c → isWs c = false) :
    (fieldsRun isWs l).length = (wsTokens l).length := by
  unfold wsTokens
  rw [List.filter_eq_self.mpr]
  intro f hf
  have hne := fieldsRun_all_ne_nil isWs l hl hhead hlast f hf
  simpa using hne

/-- Forgetting the recorded sentence lists gives back `chunkLoop`. -/
lemma chunkLoopS_map_fst (maxT ovT : Nat) :
    ∀ (sents cur : List String) (curCnt idx : Nat)
      (pcs : List (Chunk × List String)),
    (chunkLoopS maxT ovT sents cur curCnt idx pcs).map Prod.fst =
      chunkLoop maxT ovT sents cur curCnt idx (pcs.map Prod.fst) := by
  intro sents
  induction sents with
  | nil =>
    intro cur curCnt idx pcs
    by_cases h : cur.isEmpty <;> simp [chunkLoopS, chunkLoop, h]
  | cons s rest ih =>
    intro cur curCnt idx pcs
    by_cases h : curCnt + estimateTokenCount s > maxT ∧ cur.isEmpty = false
    · have hc : (curCnt + estimateTokenCount s > maxT && !cur.isEmpty) = true := by
        simp [h.1, h.2]
      simp only [chunkLoopS, chunkLoop, hc, if_true, ih, List.map_append]
      rfl
    · have hc : (curCnt + estimateTokenCount s > maxT && !cur.isEmpty) = false := by
        rcases not_and_or.mp h with h' | h'
        · simp [h']
        · have : cur.isEmpty = true := by
            cases hcur : cur.isEmpty
            · exact absurd hcur h'
            · rfl
          simp [this]
      simp [chunkLoopS, chunkLoop, hc, ih]

/-- Invariant of the instrumented loop: the running token count is the sum of
the pending sentences' estimates, and every emitted chunk's `tokenCount` and
`text` come from its recorded sentence list. -/
lemma chunkLoopS_invariant (maxT ovT : Nat) :
    ∀ (sents cur : List String) (curCnt idx : Nat)
      (pcs : List (Chunk × List String)),
    curCnt = (cur.map estimateTokenCount).sum →
    (∀ p ∈ pcs, p.1.tokenCount = (p.2.map estimateTokenCount).sum ∧
      p.1.text = joinChunk p.2) →
    ∀ p ∈ chunkLoopS maxT ovT sents cur curCnt idx pcs,
      p.1.tokenCount = (p.2.map estimateTokenCount).sum ∧
      p.1.text = joinChunk p.2 := by
  intro sents
  induction sents with
  | nil =>
    intro cur curCnt idx pcs hcnt hpcs p hp
    by_cases h : cur.isEmpty
    · simp only [chunkLoopS, h, if_true] at hp
      exact hpcs p hp
    · simp only [chunkLoopS, h, Bool.false_eq_true, if_false] at hp
      rcases List.mem_append.mp hp with hp | hp
      · exact hpcs p hp
      · rcases List.mem_singleton.mp hp with rfl
        exact ⟨hcnt, rfl⟩
  | cons s rest ih =>
    intro cur curCnt idx pcs hcnt hpcs p hp
    by_cases h : (curCnt + estimateTokenCount s > maxT && !cur.isEmpty) = true
    · simp only [chunkLoopS, h, if_true] at hp
      refine ih _ _ _ _ ?_ ?_ p hp
      · obtain ⟨_, hsum, _, _⟩ := overlapSentences_spec cur ovT
        rw [hsum, List.map_append, List.sum_append]
        rfl
      · intro q hq
        rcases List.mem_append.mp hq with hq | hq
        · exact hpcs q hq
        · rcases List.mem_singleton.mp hq with rfl
          exact ⟨hcnt, rfl⟩
    · have h' : (curCnt + estimateTokenCount s > maxT && !cur.isEmpty) = false := by
        cases hb : (curCnt + estimateTokenCount s > maxT && !cur.isEmpty)
        · rfl
        · exact absurd hb h
      simp only [chunkLoopS, h', Bool.false_eq_true, if_false] at hp
      refine ih _ _ _ _ ?_ hpcs p hp
      rw [hcnt, List.map_append, List.sum_append]
      rfl

/-! (claim theorems continued) -/

/-- C3: each emitted chunk's `tokenCount` is the sum over its accumulated
sentence list (overlap sentences included) of `ceil(length/4)`, while its
`text` is the `'. '`-join of those sentences plus a trailing period — the
count is not re-measured from the joined text. -/
theorem chunk_tokenCount_is_sentence_estimate_sum (text : String)
    (maxT ovT : Nat) :
    (chunkTextS text maxT ovT).map Prod.fst = chunkText text maxT ovT ∧
    ∀ p ∈ chunkTextS text maxT ovT,
      p.1.tokenCount = (p.2.map estimateTokenCount).sum ∧
      p.1.text = joinChunk p.2 := by
  constructor
  · simpa using
      chunkLoopS_map_fst maxT ovT (splitIntoSentences text) [] 0 0 []
  · exact chunkLoopS_invariant maxT ovT (splitIntoSentences text) [] 0 0 []
      rfl (by simp)

/-- If every chunk before `badc` embeds successfully and `badc`'s embedding
fails, the `addMemory` loop stops with the wrapped error, leaving exactly the
writes for the prior chunks in the store. -/
lemma addMemoryLoop_fail (cfg : MemoryConfig)
    (embed : String → Except String Vec) (ids : Nat → String)
    (now : Nat → Nat) (userId : String) (metadata : MetaRecord)
    (totalChunks : Nat) (badc : Chunk) (rest : List Chunk) (e : String)
    (hbad : embed badc.text = .error e) :
    ∀ (pre : List Chunk) (vs : List Vec) (n : Nat) (accIds : List String)
      (st : Store),
    pre.map (fun c => embed c.text) = vs.map Except.ok →
    addMemoryLoop cfg embed ids now userId metadata totalChunks
        (pre ++ badc :: rest) n accIds st =
      (.error ("Failed to generate embedding. Is Ollama running with " ++
          cfg.embeddingModel ++ " model?"),
        writeChunks ids now userId metadata totalChunks st pre vs n) := by
  intro pre
  induction pre with
  | nil =>
    intro vs n accIds st hok
    have hvs : vs = [] := by
      cases vs with
      | nil => rfl
      | cons v ws => simp at hok
    subst hvs
    simp only [List.nil_append, addMemoryLoop, generateEmbedding, hbad]
    rfl
  | cons c cs ih =>
    intro vs n accIds st hok
    cases vs with
    | nil => simp at hok
    | cons v ws =>
      simp only [List.map_cons, List.cons.injEq] at hok
      obtain ⟨h1, h2⟩ := hok
      simp only [List.cons_append, addMemoryLoop, generateEmbedding, h1,
        List.append_eq]
      rw [ih ws (n + 1) (accIds ++ [ids n]) _ h2]
      rfl

/-- C5: if embedding fails on the i-th chunk, `addMemory` fails with the
descriptive error naming the configured embedding model, returns no ids, and
the i chunks processed before the failure remain persisted in the vector
store (no rollback). -/
theorem addMemory_embedding_failure_spec (cfg : MemoryConfig)
    (embed : String → Except String Vec) (ids : Nat → String)
    (now : Nat → Nat) (st : Store) (userId content : String)
    (metadata : MetaRecord) (pre : List Chunk) (badc : Chunk)
    (rest : List Chunk) (vs : List Vec) (e : String) :
    chunkText (normalizeText content) cfg.maxChunkTokens cfg.overlapTokens =
      pre ++ badc :: rest →
    pre.map (fun c => embed c.text) = vs.map Except.ok →
    embed badc.text = .error e →
    addMemory cfg embed ids now st userId content metadata =
      (.error ("Failed to generate embedding. Is Ollama running with " ++
          cfg.embeddingModel ++ " model?"),
        writeChunks ids now userId metadata (pre ++ badc :: rest).length st
          pre vs 0) ∧
    ∃ a b, ("Failed to generate embedding. Is Ollama running with " ++
        cfg.embeddingModel ++ " model?") = a ++ cfg.embeddingModel ++ b := by
  intro hch hok hbad
  constructor
  · show addMemoryLoop cfg embed ids now userId metadata
        (chunkText (normalizeText content) cfg.maxChunkTokens
          cfg.overlapTokens).length
        (chunkText (normalizeText content) cfg.maxChunkTokens
          cfg.overlapTokens) 0 [] st = _
    rw [hch]
    exact addMemoryLoop_fail cfg embed ids now userId metadata
      (pre ++ badc :: rest).length badc rest e hbad pre vs 0 [] st hok
  · exact ⟨"Failed to generate embedding. Is Ollama running with ",
      " model?", rfl⟩

/-- C5 witness: a two-chunk add where the second chunk's embedding fails: the
call returns the wrapped error and the store keeps exactly the first chunk's
record. -/
theorem addMemory_embedding_failure_spec_witness :
    chunkText
        (normalizeText "Hello there. General Kenobi")
        (MemoryConfig.mk "nomic-embed-text" "llama3.2" 2 0).maxChunkTokens
        (MemoryConfig.mk "nomic-embed-text" "llama3.2" 2 0).overlapTokens =
      [⟨"Hello there.", 0, 3⟩] ++ ⟨"General Kenobi.", 1, 4⟩ :: [] ∧
    ([⟨"Hello there.", 0, 3⟩] : List Chunk).map
        (fun c => (fun t => if t = "General Kenobi." then
          (.error "down" : Except String Vec) else .ok [1]) c.text) =
      ([[1]] : List Vec).map Except.ok ∧
    (fun t => if t = "General Kenobi." then
        (.error "down" : Except String Vec) else .ok [1])
      (Chunk.mk "General Kenobi." 1 4).text = .error "down" ∧
    addMemory (MemoryConfig.mk "nomic-embed-text" "llama3.2" 2 0)
        (fun t => if t = "General Kenobi." then .error "down" else .ok [1])
        (fun n => if n = 0 then "id0" else "id1") (fun n => n) []
        "u" "Hello there. General Kenobi" (fun _ => none) =
      (.error ("Failed to generate embedding. Is Ollama running with " ++
          "nomic-embed-text" ++ " model?"),
        writeChunks (fun n => if n = 0 then "id0" else "id1") (fun n => n)
          "u" (fun _ => none) 2 [] [⟨"Hello there.", 0, 3⟩] [[1]] 0) ∧
    writeChunks (fun n => if n = 0 then "id0" else "id1") (fun n => n)
        "u" (fun _ => none) 2 [] [⟨"Hello there.", 0, 3⟩] [[1]] 0 =
      [⟨"id0", [1], "Hello there.", "u", 0,
        chunkMetadata (fun _ => none) "Hello there." 0 2⟩] := by
  refine ⟨by decide, rfl, rfl, ?_, rfl⟩
  exact ((addMemory_embedding_failure_spec
    (MemoryConfig.mk "nomic-embed-text" "llama3.2" 2 0)
    (fun t => if t = "General Kenobi." then .error "down" else .ok [1])
    (fun n => if n = 0 then "id0" else "id1") (fun n => n) [] "u"
    "Hello there. General Kenobi" (fun _ => none)
    [⟨"Hello there.", 0, 3⟩] ⟨"General Kenobi.", 1, 4⟩ [] [[1]] "down"
    (by decide) rfl rfl).1)

/-- C8 counterexample: on the empty string, `wordCount` is 1, not 0 — JS
`"".split(/\s+/)` yields `[""]`, a one-element array. -/
theorem extractMetadata_empty_wordCount_counterexample :
    (extractMetadata "").wordCount = 1 ∧
    ¬ (extractMetadata "").wordCount = 0 := by
  constructor
  · decide
  · decide

/-- C8 (amended): `charCount` always equals the string's length, and
`wordCount` equals the number of fields of the JS whitespace split — which
equals the count of whitespace-delimited tokens for every nonempty input
that neither starts nor ends with whitespace, but is 1 for the empty
string. -/
theorem extractMetadata_wordCount_charCount_spec (s : String) :
    (extractMetadata s).charCount = s.length ∧
    (extractMetadata s).wordCount = (fieldsRun isWs s.data).length ∧
    (extractMetadata "").wordCount = 1 ∧
    (s.data ≠ [] →
      (∀ c, s.data.head? = some c → isWs c = false) →
      (∀ c, s.data.getLast? = some c → isWs c = false) →
      (extractMetadata s).wordCount = (wsTokens s.data).length) := by
  refine ⟨rfl, rfl, rfl, ?_⟩
  intro h1 h2 h3
  exact fieldsRun_length_eq_wsTokens s.data h1 h2 h3

/-- C8 witness: on `"a b"` (nonempty, non-whitespace ends) the word count is
the token count, 2, and the char count is the length, 3. -/
theorem extractMetadata_wordCount_charCount_spec_witness :
    ("a b" : String).data ≠ [] ∧
    (extractMetadata "a b").charCount = ("a b" : String).length ∧
    (extractMetadata "a b").wordCount = (wsTokens ("a b" : String).data).length ∧
    (wsTokens ("a b" : String).data).length = 2 ∧
    ("a b" : String).length = 3 := by
  have h := (extractMetadata_wordCount_charCount_spec "a b").2.2.2
    (by decide)
    (by
      intro c hc
      simp only [List.head?_cons, Option.some.injEq] at hc
      subst hc
      decide)
    (by
      intro c hc
      have : c = 'b' := by
        have hl : (("a b" : String).data).getLast? = some 'b' := by decide
        rw [hl] at hc
        exact (Option.some.injEq _ _).mp hc.symm
      subst this
      decide)
  exact ⟨by decide, (extractMetadata_wordCount_charCount_spec "a b").1, h,
    by decide, by decide⟩

/-- C9: `normalizeText` is idempotent (it is also total by construction: a
pure function on strings). -/
theorem normalizeText_idempotent (s : String) :
    normalizeText (normalizeText s) = normalizeText s := by
  unfold normalizeText
  exact congrArg String.mk (normalizeChars_idem s.data)

/-- C1 counterexample: two sentences separated by two newlines normalize to
the sentences separated by a single space, not by a newline — the first
regex replace (`/\s+/g → ' '`) consumes the newlines before the newline rule
can act (this matches the repository's own unit test). -/
theorem normalizeText_newlines_counterexample :
    normalizeText "Hi.\n\nBye." = "Hi. Bye." ∧
    normalizeText "Hi.\n\nBye." ≠ "Hi.\nBye." := by
  constructor
  · decide
  · decide

/-- C1 (amended): `normalizeText` collapses every run of whitespace — spaces,
tabs and newlines alike — to a single space and trims leading/trailing
whitespace; the output contains no newline at all, so sentences separated by
two or more newlines come out separated by exactly one space. -/
theorem normalizeText_collapses_all_ws_to_space (s : String) :
    (∀ c ∈ (normalizeText s).data, isWs c = true → c = ' ') ∧
    List.Chain' NoTwoWs (normalizeText s).data ∧
    (∀ c, (normalizeText s).data.head? = some c → isWs c = false) ∧
    (∀ c, (normalizeText s).data.getLast? = some c → isWs c = false) ∧
    '\n' ∉ (normalizeText s).data :=
  ⟨normalizeChars_ws_space s.data, normalizeChars_chain' s.data,
    normalizeChars_head? s.data, normalizeChars_getLast? s.data,
    no_newline_of_ws_space _ (normalizeChars_ws_space s.data)⟩

/-- C1 witness: the amended statement at the concrete two-newline input,
together with the concrete normal form. -/
theorem normalizeText_collapses_all_ws_to_space_witness :
    ((∀ c ∈ (normalizeText "Hi.\n\nBye.").data, isWs c = true → c = ' ') ∧
      List.Chain' NoTwoWs (normalizeText "Hi.\n\nBye.").data ∧
      (∀ c, (normalizeText "Hi.\n\nBye.").data.head? = some c →
        isWs c = false) ∧
      (∀ c, (normalizeText "Hi.\n\nBye.").data.getLast? = some c →
        isWs c = false) ∧
      '\n' ∉ (normalizeText "Hi.\n\nBye.").data) ∧
    normalizeText "Hi.\n\nBye." = "Hi. Bye." :=
  ⟨normalizeText_collapses_all_ws_to_space "Hi.\n\nBye.", by decide⟩

/-- C3 witness: in a concrete two-chunk run, the first emitted chunk's
`tokenCount` is the estimate-sum of its sentence list, and differs from a
re-measure of the joined text. -/
theorem chunk_tokenCount_is_sentence_estimate_sum_witness :
    ((⟨"Hello there.", 0, 3⟩, ["Hello there"]) : Chunk × List String) ∈
      chunkTextS "Hello there. General Kenobi" 3 0 ∧
    ((((⟨"Hello there.", 0, 3⟩, ["Hello there"]) :
        Chunk × List String)).1.tokenCount =
      ((["Hello there"].map estimateTokenCount)).sum ∧
      (((⟨"Hello there.", 0, 3⟩, ["Hello there"]) :
        Chunk × List String)).1.text = joinChunk ["Hello there"]) :=
  ⟨by decide,
    (chunk_tokenCount_is_sentence_estimate_sum "Hello there. General Kenobi"
      3 0).2 _ (by decide)⟩

/-- C2: at every flush of `chunkText`, the successor chunk is seeded with
exactly the overlap computed by `overlapSentences` from the flushed sentence
list, and that overlap is the maximal whole-sentence suffix of the flushed
list whose cumulative estimated token count stays within `overlapTokens` —
never a partial sentence. -/
theorem chunk_overlap_maximal_whole_sentence_suffix (maxT ovT : Nat)
    (s : String) (rest cur : List String) (curCnt idx : Nat)
    (chunks : List Chunk) (hflush : curCnt + estimateTokenCount s > maxT)
    (hne : cur ≠ []) :
    chunkLoop maxT ovT (s :: rest) cur curCnt idx chunks =
      chunkLoop maxT ovT rest ((overlapSentences cur ovT).1 ++ [s])
        ((overlapSentences cur ovT).2 + estimateTokenCount s) (idx + 1)
        (chunks ++ [⟨joinChunk cur, idx, curCnt⟩]) ∧
    (overlapSentences cur ovT).1 <:+ cur ∧
    (overlapSentences cur ovT).2 =
      (((overlapSentences cur ovT).1).map estimateTokenCount).sum ∧
    (overlapSentences cur ovT).2 ≤ ovT ∧
    (∀ t, t <:+ cur → (t.map estimateTokenCount).sum ≤ ovT →
      t.length ≤ (overlapSentences cur ovT).1.length) := by
  have hne' : cur.isEmpty = false := by
    cases cur with
    | nil => exact absurd rfl hne
    | cons a t => rfl
  obtain ⟨hsuf, hsum, hle, hmax⟩ := overlapSentences_spec cur ovT
  refine ⟨?_, hsuf, hsum, hle, hmax⟩
  simp [chunkLoop, hne', hflush]

/-- C2 witness: a concrete flush step where the whole previous chunk fits the
overlap budget. -/
theorem chunk_overlap_maximal_whole_sentence_suffix_witness :
    3 + estimateTokenCount "Bye" > 2 ∧ (["Hello there"] : List String) ≠ [] ∧
    (chunkLoop 2 3 ["Bye"] ["Hello there"] 3 0 [] =
      chunkLoop 2 3 [] ((overlapSentences ["Hello there"] 3).1 ++ ["Bye"])
        ((overlapSentences ["Hello there"] 3).2 + estimateTokenCount "Bye")
        (0 + 1) ([] ++ [⟨joinChunk ["Hello there"], 0, 3⟩]) ∧
      (overlapSentences ["Hello there"] 3).1 <:+ ["Hello there"] ∧
      (overlapSentences ["Hello there"] 3).2 =
        (((overlapSentences ["Hello there"] 3).1).map estimateTokenCount).sum ∧
      (overlapSentences ["Hello there"] 3).2 ≤ 3 ∧
      (∀ t, t <:+ (["Hello there"] : List String) →
        (t.map estimateTokenCount).sum ≤ 3 →
        t.length ≤ (overlapSentences ["Hello there"] 3).1.length)) :=
  ⟨by decide, by decide,
    chunk_overlap_maximal_whole_sentence_suffix 2 3 "Bye" [] ["Hello there"]
      3 0 [] (by decide) (by decide)⟩

/-! ## Claim theorems -/

/-- C4: the metadata stored with each chunk maps every key outside the derived
set (`wordCount`, `charCount`, `hasUrl`, `hasEmail`, `language`, `chunkIndex`,
`totalChunks`) to the caller's value, while every derived key gets the
extraction- or pipeline-derived value, overriding any caller-supplied value. -/
theorem chunkMetadata_merge_spec (metadata : MetaRecord) (text : String)
    (chunkIndex totalChunks : Nat) (k : String) :
    (k ∉ (["wordCount", "charCount", "hasUrl", "hasEmail", "language",
        "chunkIndex", "totalChunks"] : List String) →
      chunkMetadata metadata text chunkIndex totalChunks k = metadata k) ∧
    chunkMetadata metadata text chunkIndex totalChunks "wordCount" =
      some (.nat (extractMetadata text).wordCount) ∧
    chunkMetadata metadata text chunkIndex totalChunks "charCount" =
      some (.nat (extractMetadata text).charCount) ∧
    chunkMetadata metadata text chunkIndex totalChunks "hasUrl" =
      some (.bool (extractMetadata text).hasUrl) ∧
    chunkMetadata metadata text chunkIndex totalChunks "hasEmail" =
      some (.bool (extractMetadata text).hasEmail) ∧
    chunkMetadata metadata text chunkIndex totalChunks "language" =
      some (.str (extractMetadata text).language) ∧
    chunkMetadata metadata text chunkIndex totalChunks "chunkIndex" =
      some (.nat chunkIndex) ∧
    chunkMetadata metadata text chunkIndex totalChunks "totalChunks" =
      some (.nat totalChunks) := by
  refine ⟨?_, ?_, ?_, ?_, ?_, ?_, ?_, ?_⟩
  · intro hk
    simp only [List.mem_cons, List.not_mem_nil, or_false, not_or] at hk
    obtain ⟨h1, h2, h3, h4, h5, h6, h7⟩ := hk
    unfold chunkMetadata extractRecord
    simp [h1, h2, h3, h4, h5, h6, h7]
  all_goals (unfold chunkMetadata extractRecord; simp)

/-- C4 witness: at a caller record supplying both a non-derived key and a
derived key, the non-derived key keeps the caller's value and the derived
keys get the derived values. -/
theorem chunkMetadata_merge_spec_witness :
    ("color" ∉ (["wordCount", "charCount", "hasUrl", "hasEmail", "language",
        "chunkIndex", "totalChunks"] : List String)) ∧
    ((fun k => if k = "color" then some (MetaVal.str "blue")
        else if k = "wordCount" then some (MetaVal.nat 999) else none) :
        MetaRecord) "color" = some (MetaVal.str "blue") ∧
    chunkMetadata
      (fun k => if k = "color" then some (MetaVal.str "blue")
        else if k = "wordCount" then some (MetaVal.nat 999) else none)
      "one two" 3 7 "color" = some (MetaVal.str "blue") ∧
    chunkMetadata
      (fun k => if k = "color" then some (MetaVal.str "blue")
        else if k = "wordCount" then some (MetaVal.nat 999) else none)
      "one two" 3 7 "wordCount" = some (MetaVal.nat 2) ∧
    chunkMetadata
      (fun k => if k = "color" then some (MetaVal.str "blue")
        else if k = "wordCount" then some (MetaVal.nat 999) else none)
      "one two" 3 7 "chunkIndex" = some (MetaVal.nat 3) := by
  refine ⟨by decide, rfl, ?_, ?_, ?_⟩
  · exact ((chunkMetadata_merge_spec _ "one two" 3 7 "color").1 (by decide)).trans rfl
  · exact ((chunkMetadata_merge_spec _ "one two" 3 7 "wordCount").2.1).trans (by rfl)
  · exact (chunkMetadata_merge_spec _ "one two" 3 7 "chunkIndex").2.2.2.2.2.2.1

/-- C6: when memory context is enabled and the search returned at least one
result, `chat` reports `memoriesUsed` equal to the configured
`maxContextMemories` limit (a request-parameter echo); when context is
disabled, it reports 0. -/
theorem chat_memoriesUsed_echoes_limit (cfg : MemoryConfig)
    (embed : String → Except String Vec) (score : Vec → Vec → ℚ)
    (complete : String → String → String) (st : Store) (opts : ChatOptions)
    (rs : List SearchResult) :
    (opts.includeMemoryContext.getD true = true →
      searchMemories cfg embed score st
          ⟨opts.userId, opts.message, some (opts.maxContextMemories.getD 5),
            none⟩ = .ok rs →
      rs ≠ [] →
      (chat cfg embed score complete st opts).map ChatResult.memoriesUsed =
        .ok (opts.maxContextMemories.getD 5)) ∧
    (opts.includeMemoryContext.getD true = false →
      (chat cfg embed score complete st opts).map ChatResult.memoriesUsed =
        .ok 0) := by
  constructor
  · intro hinc hsearch _
    unfold chat chatContextPrompt
    rw [hinc, hsearch]
    by_cases hlen : rs.length > 0 <;> simp [hlen, hinc, Except.map]
  · intro hinc
    unfold chat chatContextPrompt
    rw [hinc]
    rfl

/-- C6 witness: with context enabled (by default) and one search result, a
concrete `chat` call reports `memoriesUsed = 5`; with context disabled it
reports 0. -/
theorem chat_memoriesUsed_echoes_limit_witness :
    (ChatOptions.mk "u" "hi" none none none).includeMemoryContext.getD true =
      true ∧
    searchMemories defaultMemoryConfig (fun _ => .ok [1]) (fun _ _ => 1)
        [⟨"p1", [1], "hello", "u", 0, fun _ => none⟩]
        ⟨"u", "hi", some 5, none⟩ =
      .ok [⟨"p1", 1, "hello", 0, fun _ => none⟩] ∧
    (chat defaultMemoryConfig (fun _ => .ok [1]) (fun _ _ => 1)
        (fun _ _ => "resp") [⟨"p1", [1], "hello", "u", 0, fun _ => none⟩]
        ⟨"u", "hi", none, none, none⟩).map ChatResult.memoriesUsed = .ok 5 ∧
    (chat defaultMemoryConfig (fun _ => .ok [1]) (fun _ _ => 1)
        (fun _ _ => "resp") [⟨"p1", [1], "hello", "u", 0, fun _ => none⟩]
        ⟨"u", "hi", none, some false, none⟩).map ChatResult.memoriesUsed =
      .ok 0 := by
  refine ⟨rfl, rfl, ?_, ?_⟩
  · exact (chat_memoriesUsed_echoes_limit defaultMemoryConfig
      (fun _ => .ok [1]) (fun _ _ => 1) (fun _ _ => "resp")
      [⟨"p1", [1], "hello", "u", 0, fun _ => none⟩]
      ⟨"u", "hi", none, none, none⟩
      [⟨"p1", 1, "hello", 0, fun _ => none⟩]).1 rfl rfl
      (by simp)
  · exact (chat_memoriesUsed_echoes_limit defaultMemoryConfig
      (fun _ => .ok [1]) (fun _ _ => 1) (fun _ _ => "resp")
      [⟨"p1", [1], "hello", "u", 0, fun _ => none⟩]
      ⟨"u", "hi", none, some false, none⟩ []).2 rfl

/-- C10 (implicit): when memory context is enabled but the search returned
zero results, `chat` still reports `memoriesUsed` equal to the configured
`maxContextMemories` limit (default 5) — the value is independent of how many
memories were actually found. -/
theorem chat_memoriesUsed_echoes_limit_zero_results (cfg : MemoryConfig)
    (embed : String → Except String Vec) (score : Vec → Vec → ℚ)
    (complete : String → String → String) (st : Store) (opts : ChatOptions) :
    opts.includeMemoryContext.getD true = true →
    searchMemories cfg embed score st
        ⟨opts.userId, opts.message, some (opts.maxContextMemories.getD 5),
          none⟩ = .ok [] →
    (chat cfg embed score complete st opts).map ChatResult.memoriesUsed =
      .ok (opts.maxContextMemories.getD 5) := by
  intro hinc hsearch
  unfold chat chatContextPrompt
  rw [hinc, hsearch]
  rfl

/-- C10 witness: a concrete enabled `chat` call over an empty store (search
returns no results) still reports `memoriesUsed = 5`. -/
theorem chat_memoriesUsed_echoes_limit_zero_results_witness :
    (ChatOptions.mk "u" "hi" none none none).includeMemoryContext.getD true =
      true ∧
    searchMemories defaultMemoryConfig (fun _ => .ok [1]) (fun _ _ => 1)
        ([] : Store) ⟨"u", "hi", some 5, none⟩ = .ok [] ∧
    (chat defaultMemoryConfig (fun _ => .ok [1]) (fun _ _ => 1)
        (fun _ _ => "resp") ([] : Store)
        ⟨"u", "hi", none, none, none⟩).map ChatResult.memoriesUsed =
      .ok 5 := by
  refine ⟨rfl, rfl, ?_⟩
  exact chat_memoriesUsed_echoes_limit_zero_results defaultMemoryConfig
    (fun _ => .ok [1]) (fun _ _ => 1) (fun _ _ => "resp") []
    ⟨"u", "hi", none, none, none⟩ rfl rfl

/-- C7: a successful `searchMemories` never returns a result scoring below the
effective threshold (default 0.5), never returns more than the effective
limit (default 5) results, and every returned row comes from a stored chunk
whose `userId` is the requested one. -/
theorem searchMemories_threshold_limit_user_spec (cfg : MemoryConfig)
    (embed : String → Except String Vec) (score : Vec → Vec → ℚ) (st : Store)
    (opts : SearchMemoryOptions) (rs : List SearchResult) :
    searchMemories cfg embed score st opts = .ok rs →
    (∀ r ∈ rs, opts.scoreThreshold.getD half ≤ r.score) ∧
    rs.length ≤ opts.limit.getD 5 ∧
    (∀ r ∈ rs, ∃ p, p ∈ st ∧ p.userId = opts.userId ∧ p.id = r.id ∧
      p.text = r.text ∧ p.timestamp = r.timestamp) := by
  intro h
  unfold searchMemories at h
  cases he : generateEmbedding cfg embed opts.query with
  | error e => rw [he] at h; simp at h
  | ok qv =>
    rw [he] at h
    simp only [Except.ok.injEq] at h
    subst h
    refine ⟨?_, vectorStoreSearch_length _ _ _ _ _ _, ?_⟩
    · intro r hr
      obtain ⟨p, _, _, hthr, rfl⟩ := vectorStoreSearch_mem hr
      exact hthr
    · intro r hr
      obtain ⟨p, hmem, huid, _, rfl⟩ := vectorStoreSearch_mem hr
      exact ⟨p, hmem, huid, rfl, rfl, rfl⟩

/-- C7 witness: on a concrete store holding chunks of two users (one of them
below the threshold), a concrete search returns one row, satisfying all three
bounds. -/
theorem searchMemories_threshold_limit_user_spec_witness :
    searchMemories defaultMemoryConfig (fun _ => .ok [1])
        (fun _ v => if v = [9] then 0 else 1)
        [⟨"p1", [1], "t1", "u", 0, fun _ => none⟩,
         ⟨"p2", [9], "t2", "u", 0, fun _ => none⟩,
         ⟨"p3", [1], "t3", "v", 0, fun _ => none⟩]
        ⟨"u", "q", none, none⟩ = .ok [⟨"p1", 1, "t1", 0, fun _ => none⟩] ∧
    ((∀ r ∈ [(⟨"p1", 1, "t1", 0, fun _ => none⟩ : SearchResult)],
        (none : Option ℚ).getD half ≤ r.score) ∧
      [(⟨"p1", 1, "t1", 0, fun _ => none⟩ : SearchResult)].length ≤
        (none : Option Nat).getD 5 ∧
      (∀ r ∈ [(⟨"p1", 1, "t1", 0, fun _ => none⟩ : SearchResult)],
        ∃ p, p ∈ ([⟨"p1", [1], "t1", "u", 0, fun _ => none⟩,
            ⟨"p2", [9], "t2", "u", 0, fun _ => none⟩,
            ⟨"p3", [1], "t3", "v", 0, fun _ => none⟩] : Store) ∧
          p.userId = "u" ∧ p.id = r.id ∧ p.text = r.text ∧
          p.timestamp = r.timestamp)) := by
  refine ⟨rfl, ?_⟩
  exact searchMemories_threshold_limit_user_spec defaultMemoryConfig
    (fun _ => .ok [1]) (fun _ v => if v = [9] then 0 else 1)
    [⟨"p1", [1], "t1", "u", 0, fun _ => none⟩,
     ⟨"p2", [9], "t2", "u", 0, fun _ => none⟩,
     ⟨"p3", [1], "t3", "v", 0, fun _ => none⟩]
    ⟨"u", "q", none, none⟩ [⟨"p1", 1, "t1", 0, fun _ => none⟩] rfl

end Memories
